import Mathlib

/-!
Verification development for the wordle starting-word scorer
(src/main.rs).  The program loads a dictionary, derives a per-letter
frequency table, scores 5-letter candidate words and pairs of words,
shards the pairwise computation over a fixed pool of 24 workers, keeps
the top-100 pairs of each shard and merges the shard results.

Embedding conventions:
* Rust `String` is Lean `String` (a list of unicode scalar values);
  Rust `String::len` is the UTF-8 byte count, embedded as `byte_len`.
* `f32` scores are idealised as exact rationals `ℚ`; every arithmetic
  operation of the source (sum, difference, halving, count ÷ total) is
  mirrored on `ℚ`.
* `BTreeMap` / `IndexMap` are embedded as association lists; `BTreeMap`
  lookup and `IndexMap` insert (update value of an existing key in
  place, otherwise append) are mirrored; iteration orders only matter
  to the claims through lookups and key membership.
* A Rust `HashSet` iteration is embedded as a list traversal; the only
  folds the program performs over hash sets are commutative counts and
  sums, so a fixed traversal order is faithful.
* A Rust panic (`unwrap` / `expect` failure, out-of-bounds index) is
  `none`; fallible computations return `Option`.
-/

namespace WordleModel

/-- The apostrophe character, written by code point to keep the
character literal unambiguous. -/
def apos : Char := Char.ofNat 39

/-- Rust `c.is_ascii() && c.is_alphanumeric()`: the char is an ASCII
code point and Unicode-alphanumeric.  On ASCII code points Unicode
alphanumeric is exactly the ranges 0-9, A-Z, a-z. -/
def is_ascii_alnum (c : Char) : Bool :=
  c.val ≤ 127 &&
    ((48 ≤ c.val && c.val ≤ 57) || (65 ≤ c.val && c.val ≤ 90) ||
      (97 ≤ c.val && c.val ≤ 122))

/-- Rust `c.is_ascii_lowercase()`. -/
def is_ascii_lowercase (c : Char) : Bool :=
  97 ≤ c.val && c.val ≤ 122

/-- Rust `char::to_ascii_lowercase`, applied characterwise by
`str::to_ascii_lowercase`: shifts A-Z by 32, leaves everything else. -/
def to_ascii_lowercase (c : Char) : Char :=
  if 65 ≤ c.val && c.val ≤ 90 then Char.ofNat (c.toNat + 32) else c

/-- Rust `String::len`: the UTF-8 byte length of the string. -/
def byte_len (w : String) : Nat :=
  (w.data.map Char.utf8Size).sum

/-- Embeds `is_possible_starting_word` from src/main.rs: reject words whose
byte length is not 5, then words with a character that is not ASCII
alphanumeric. -/
def is_possible_starting_word (w : String) : Bool :=
  if byte_len w ≠ 5 then false
  else if !(w.data.all is_ascii_alnum) then false
  else true

/-- Embeds `un_pluralize` from src/main.rs:
`word.strip_suffix('s').unwrap_or(word)`. -/
def un_pluralize (w : String) : String :=
  if w.data.getLast? = some 's' then String.mk w.data.dropLast else w

/-- Occurrence counts, the `BTreeMap<char, usize>` of the source. -/
abbrev OccMap := List (Char × Nat)

/-- The frequency table, the `BTreeMap<char, f32>` of the source. -/
abbrev FreqTable := List (Char × ℚ)

/-- Embeds `*occurrences.entry(character).or_insert(0) += 1`: bump the count
of `c` in place when the key is present, otherwise add the key with
count 1. -/
def bump : OccMap → Char → OccMap
  | [], c => [(c, 1)]
  | (k, v) :: m, c => if k = c then (k, v + 1) :: m else (k, v) :: bump m c

/-- The inner loop of `letter_frequencies`: count every ASCII
alphanumeric character of the word and bump the running total. -/
def count_word (acc : OccMap × Nat) (w : String) : OccMap × Nat :=
  (w.data.filter is_ascii_alnum).foldl (fun a c => (bump a.1 c, a.2 + 1)) acc

/-- One iteration of the word loop of `letter_frequencies`: `continue`
on a word containing an apostrophe, `continue` on a word ending in `s`
whose un-pluralized form is in the set, otherwise count the word. -/
def freq_step (ws : List String) (a : OccMap × Nat) (w : String) : OccMap × Nat :=
  if w.data.contains apos then a
  else if w.data.getLast? = some 's' && ws.contains (un_pluralize w) then a
  else count_word a w

/-- Embeds `letter_frequencies` from src/main.rs: skip words containing an
apostrophe, skip words ending in `s` whose un-pluralized form is in the
set, count the ASCII alphanumeric characters of the remaining words,
then divide each count by the total. -/
def letter_frequencies (ws : List String) : FreqTable :=
  let acc := ws.foldl (freq_step ws) (([] : OccMap), (0 : Nat))
  acc.1.map (fun p => (p.1, (p.2 : ℚ) / (acc.2 : ℚ)))

/-- The words of the set that the frequency estimator does not skip:
no apostrophe, and not a plural duplicate of a word in the set. -/
def keep_word (ws : List String) (w : String) : Bool :=
  !(w.data.contains apos) &&
    !(w.data.getLast? = some 's' && ws.contains (un_pluralize w))

/-- Specification-side view of the skipping rules of
`letter_frequencies`: the words that are actually counted. -/
def kept_words (ws : List String) : List String :=
  ws.filter (keep_word ws)

/-- Specification-side view of the counted character occurrences: every
ASCII alphanumeric character occurrence of every kept word. -/
def counted_chars (ws : List String) : List Char :=
  (kept_words ws).flatMap (fun w => w.data.filter is_ascii_alnum)

/-- Embeds `single_word_score` from src/main.rs: collapse the word to its set
of distinct characters and add up their frequency-table entries, each
looked-up entry being unwrapped (`none` = panic on a missing key). -/
def single_word_score (w : String) (fr : FreqTable) : Option ℚ :=
  (w.data.dedup).foldlM (fun s c => (fr.lookup c).map (fun q => s + q)) (0 : ℚ)

/-- The value of `single_word_score` when every letter is present. -/
def sws_val (w : String) (fr : FreqTable) : ℚ :=
  ((w.data.dedup).map (fun c => (fr.lookup c).getD 0)).sum

/-- Embeds `IndexMap::insert`: update the value of an existing key in place,
otherwise append the pair. -/
def im_insert {K V : Type} [BEq K] (m : List (K × V)) (k : K) (v : V) :
    List (K × V) :=
  if m.any (fun p => p.1 == k) then
    m.map (fun p => if p.1 == k then (k, v) else p)
  else m ++ [(k, v)]

/-- Embeds `score_single_words` from src/main.rs. -/
def score_single_words (words : List String) (fr : FreqTable) :
    Option (List (String × ℚ)) :=
  words.foldlM (fun m w => (single_word_score w fr).map (fun s => im_insert m w s))
    ([] : List (String × ℚ))

/-- The pair-score map type, `IndexMap<(String, String), f32>`. -/
abbrev PairMap := List ((String × String) × ℚ)

/-- One iteration of the penalty loop of `score_word_pair` at position
`ic.1` holding character `ic.2` of `word2`: full penalty when `word1`
has the same character at the same position (indexing out of bounds is
a panic), half penalty when `word1` contains it anywhere else. -/
def pair_penalty_step (w1 : String) (fr : FreqTable) (s : ℚ) (ic : Nat × Char) :
    Option ℚ :=
  match w1.data.get? ic.1 with
  | none => none
  | some c1 =>
    if c1 = ic.2 then (fr.lookup ic.2).map (fun q => s - q)
    else if w1.data.contains ic.2 then (fr.lookup ic.2).map (fun q => s - q / 2)
    else some s

/-- The score computed for one `(word1, word2)` pair by
`score_word_pair`: the two single-word scores, minus the positional
penalties over the characters of `word2`. -/
def pair_score (w1 w2 : String) (fr : FreqTable) : Option ℚ := do
  let s1 ← single_word_score w1 fr
  let s2 ← single_word_score w2 fr
  (w2.data.enum).foldlM (pair_penalty_step w1 fr) (s1 + s2)

/-- Key membership in a pair map. -/
def has_key (m : PairMap) (k : String × String) : Bool :=
  m.any (fun p => p.1 == k)

/-- Embeds `score_word_pair` from src/main.rs: fold `word1` against every
`word2` of the candidate list, skipping a pair when either ordering of
it is already a key of the accumulated map, otherwise scoring it and
inserting it under the key `(word1, word2)`. -/
def score_word_pair (w1 : String) (fr : FreqTable) (all_words : List String)
    (m : PairMap) : Option PairMap :=
  all_words.foldlM
    (fun m w2 =>
      if has_key m (w1, w2) || has_key m (w2, w1) then some m
      else (pair_score w1 w2 fr).map (fun s => im_insert m (w1, w2) s))
    m

/-- Insert an entry into a list that is sorted by descending score. -/
def insert_desc {K : Type} (x : K × ℚ) : List (K × ℚ) → List (K × ℚ)
  | [] => [x]
  | y :: ys => if x.2 ≤ y.2 then y :: insert_desc x ys else x :: y :: ys

/-- Sort a scored collection by descending score, the
`sorted_by(|v1, v2| v2.partial_cmp(v1))` of the source (total on the
idealised `ℚ` scores). -/
def sort_desc {K : Type} : List (K × ℚ) → List (K × ℚ)
  | [] => []
  | x :: xs => insert_desc x (sort_desc xs)

/-- Embeds `score_word_pairs_shard` from src/main.rs: score every word of the
shard against the full candidate list, then keep only the top 100
pairs of the shard by score. -/
def score_word_pairs_shard (words_to_score all_words : List String)
    (fr : FreqTable) : Option PairMap := do
  let m ← words_to_score.foldlM (fun m w1 => score_word_pair w1 fr all_words m)
    ([] : PairMap)
  pure ((sort_desc m).take 100)

/-- The fixed worker-pool size of the source. -/
def N_THREADS : Nat := 24

/-- The shard-splitting loop of `score_word_pairs`: each of the
`N_THREADS` iterations splits off the last
`all_words.len() / N_THREADS` remaining words as one shard
(`split_off` keeps the prefix and hands out the suffix). -/
def shards_go : Nat → List String → Nat → List (List String)
  | 0, _, _ => []
  | k + 1, left, q =>
    let idx := min (left.length - q) left.length
    left.drop idx :: shards_go k (left.take idx) q

/-- The 24 worker shards that `score_word_pairs` builds from the
candidate list. -/
def shards (all_words : List String) : List (List String) :=
  shards_go N_THREADS all_words (all_words.length / N_THREADS)

/-- The merge loop of `score_word_pairs`: insert every entry of a
finished shard into the accumulated map. -/
def merge_shard (acc : PairMap) (m : PairMap) : PairMap :=
  m.foldl (fun acc p => im_insert acc p.1 p.2) acc

/-- Embeds `score_word_pairs` from src/main.rs: run every shard against the
full candidate list and merge the shard results in join order. -/
def score_word_pairs (all_words : List String) (fr : FreqTable) :
    Option PairMap := do
  let results ← (shards all_words).mapM
    (fun s => score_word_pairs_shard s all_words fr)
  pure (results.foldl merge_shard [])

/-- The dictionary-loading pipeline of `main`: for every line the
first character is demanded (`chars().nth(0).unwrap()` aborts on an
empty line), lines whose first character is not ASCII lowercase are
dropped, and retained lines are ASCII-lowercased. -/
def load_words : List String → Option (List String)
  | [] => some []
  | l :: ls =>
    match l.data.head? with
    | none => none
    | some c =>
      (load_words ls).map (fun rest =>
        if is_ascii_lowercase c then
          String.mk (l.data.map to_ascii_lowercase) :: rest
        else rest)

/-- The whole run of `main` on the decoded dictionary lines, returning
the data it reports: the frequency table, the top 20 single words and
the top 20 pairs.  Collecting the loaded lines into a `HashSet` is
embedded as `dedup`. -/
def run_main (lines : List String) :
    Option (FreqTable × List (String × ℚ) × PairMap) := do
  let parsed ← load_words lines
  let all_words := parsed.dedup
  let starting_words := all_words.filter is_possible_starting_word
  let fr := letter_frequencies all_words
  let word_scores ← score_single_words starting_words fr
  let pair_scores ← score_word_pairs starting_words fr
  pure (fr, (sort_desc word_scores).take 20, (sort_desc pair_scores).take 20)

/-- A 5-letter word, one distinguishing first character followed by
four copies of the letter a. -/
def mkW (c : Char) : String := String.mk [c, 'a', 'a', 'a', 'a']

/-- Twenty-four distinct first characters. -/
def letters24 : List Char :=
  ['a', 'b', 'c', 'd', 'e', 'f', 'g', 'h', 'i', 'j', 'k', 'l',
   'm', 'n', 'o', 'p', 'q', 'r', 's', 't', 'u', 'v', 'w', 'x']

/-- A candidate list of exactly 24 distinct 5-letter words, so each of
the 24 shards holds exactly one word. -/
def words24 : List String := letters24.map mkW

/-- The frequency table the program derives from `words24`. -/
def fr24 : FreqTable := letter_frequencies words24

/-- Whether the merged result of `score_word_pairs` holds the given
key (`false` when the run aborts). -/
def pairs_has_key (aw : List String) (fr : FreqTable) (k : String × String) :
    Bool :=
  match score_word_pairs aw fr with
  | some m => has_key m k
  | none => false

/-- Whether the result of one shard holds the given key (`false` when the
shard aborts). -/
def shard_has_key (s aw : List String) (fr : FreqTable) (k : String × String) :
    Bool :=
  match score_word_pairs_shard s aw fr with
  | some r => has_key r k
  | none => false

/-- A small concrete frequency table for witnesses. -/
def frW : FreqTable :=
  [('a', mkRat 1 10), ('b', mkRat 1 10), ('c', mkRat 1 10), ('d', mkRat 1 10),
   ('e', mkRat 1 10), ('f', mkRat 1 10), ('g', mkRat 1 10), ('h', mkRat 1 10),
   ('i', mkRat 1 10), ('j', mkRat 1 10)]

/-- A one-word shard map over a tiny candidate list, for the witnesses
of the shard-level statements. -/
def mW2 : PairMap :=
  (score_word_pairs_shard [mkW 'b'] [mkW 'b', mkW 'c'] frW).getD []

/-- The map `score_word_pair` builds for `word1 = mkW b` over a tiny
candidate list containing it. -/
def mW3 : PairMap :=
  (score_word_pair (mkW 'b') frW [mkW 'b', mkW 'c'] []).getD []

/-- The penalty that the loop of `score_word_pair` charges for position
`ic.1` of `word2` holding character `ic.2` (the wording of the spec):
the full frequency when `word1` has that character at that position,
half of it when `word1` contains the character anywhere, else zero. -/
def pen_term (w1 : String) (fr : FreqTable) (ic : Nat × Char) : ℚ :=
  if w1.data.get? ic.1 = some ic.2 then (fr.lookup ic.2).getD 0
  else if ic.2 ∈ w1.data then (fr.lookup ic.2).getD 0 / 2
  else 0

/-- An extra word that lands in the dropped remainder of the shard
split. -/
def words25 : List String := mkW 'y' :: words24

end WordleModel

namespace WordleModel

/-! ### Helper lemmas -/

theorem utf8Size_eq_one_of_ascii {c : Char} (h : c.val ≤ 127) : c.utf8Size = 1 := by
  have h127 : UInt32.ofNatCore 0x7F (by decide) = 127 := rfl
  unfold Char.utf8Size
  rw [h127, if_pos h]

theorem sum_map_ones {α : Type} (f : α → Nat) :
    ∀ (l : List α), (∀ x ∈ l, f x = 1) → (l.map f).sum = l.length
  | [], _ => rfl
  | x :: xs, h => by
    simp only [List.map_cons, List.sum_cons, List.length_cons,
      h x (List.mem_cons_self x xs), sum_map_ones f xs
        (fun y hy => h y (List.mem_cons_of_mem x hy))]
    omega

/-! ### C9: the candidate filter -/

/-- C9: `is_possible_starting_word` accepts a word exactly when it has
five characters, all of them ASCII alphanumeric; in particular every
word of a different length and every word with a non-ASCII-alphanumeric
character is rejected. -/
theorem c9_is_possible_starting_word_iff (w : String) :
    is_possible_starting_word w = true ↔
      (w.data.length = 5 ∧ ∀ c ∈ w.data, is_ascii_alnum c = true) := by
  unfold is_possible_starting_word
  constructor
  · intro h
    by_cases hb : byte_len w ≠ 5
    · simp [hb] at h
    · simp only [hb, if_false] at h
      by_cases ha : w.data.all is_ascii_alnum
      · have hall : ∀ c ∈ w.data, is_ascii_alnum c = true := by
          simpa [List.all_eq_true] using ha
        refine ⟨?_, hall⟩
        have : byte_len w = w.data.length := by
          unfold byte_len
          exact sum_map_ones _ _ (fun c hc =>
            utf8Size_eq_one_of_ascii (by
              have := hall c hc
              unfold is_ascii_alnum at this
              simp only [Bool.and_eq_true, decide_eq_true_eq] at this
              exact this.1))
        omega
      · simp [ha] at h
  · rintro ⟨hlen, hall⟩
    have hb : byte_len w = 5 := by
      unfold byte_len
      rw [sum_map_ones _ _ (fun c hc =>
        utf8Size_eq_one_of_ascii (by
          have := hall c hc
          unfold is_ascii_alnum at this
          simp only [Bool.and_eq_true, decide_eq_true_eq] at this
          exact this.1))]
      exact hlen
    have ha : w.data.all is_ascii_alnum = true := by
      simpa [List.all_eq_true] using hall
    simp [hb, ha]

/-! ### C1: the shard split loses the remainder -/

/-- C1 (evaluation of the defect): with 1 candidate every one of the 24
shards is empty and the candidate is lost; with 25 candidates the
shards hold only 24 words between them and the first candidate is in no
shard, so the shard sizes do not sum to the candidate count. -/
theorem c1_shards_lose_remainder :
    shards [mkW 'z'] = List.replicate 24 [] ∧
      words25.length = 25 ∧
      (shards words25).flatten.length = 24 ∧
      mkW 'y' ∈ words25 ∧
      mkW 'y' ∉ (shards words25).flatten := by decide

end WordleModel

namespace WordleModel

/-! ### Single-word scores -/

theorem foldlM_add_lookup (fr : FreqTable) :
    ∀ (l : List Char) (s : ℚ),
      (l.foldlM (fun s c => (fr.lookup c).map (fun q => s + q)) s) =
        if l.all (fun c => (fr.lookup c).isSome) then
          some (s + (l.map (fun c => (fr.lookup c).getD 0)).sum)
        else none
  | [], s => by simp
  | c :: l, s => by
    simp only [List.foldlM_cons, List.all_cons, List.map_cons, List.sum_cons]
    cases h : fr.lookup c with
    | none => simp [h]
    | some q =>
      simp only [h, Option.map_some', Option.bind_eq_bind, Option.some_bind,
        Option.isSome_some, Bool.true_and, Option.getD_some]
      rw [foldlM_add_lookup fr l (s + q)]
      by_cases ha : l.all (fun c => (fr.lookup c).isSome)
      · simp only [ha, if_true]
        congr 1
        ring
      · simp [ha]

theorem single_word_score_eq (w : String) (fr : FreqTable) :
    single_word_score w fr =
      if w.data.dedup.all (fun c => (fr.lookup c).isSome) then some (sws_val w fr)
      else none := by
  unfold single_word_score sws_val
  rw [foldlM_add_lookup]
  simp

theorem single_word_score_eq_of_mem (w : String) (fr : FreqTable)
    (h : ∀ c ∈ w.data, (fr.lookup c).isSome = true) :
    single_word_score w fr = some (sws_val w fr) := by
  rw [single_word_score_eq, if_pos]
  simp only [List.all_eq_true]
  intro c hc
  exact h c (List.mem_dedup.mp hc)

/-- C7: the single-word score only depends on the set of letters of the
word; permuting the letters leaves the score unchanged (a missing
letter aborts both computations alike). -/
theorem c7_single_word_score_perm (w w' : String) (fr : FreqTable)
    (h : w.data.Perm w'.data) :
    single_word_score w fr = single_word_score w' fr := by
  have hd : w.data.dedup.Perm w'.data.dedup := h.dedup
  rw [single_word_score_eq, single_word_score_eq]
  have hall : (w.data.dedup.all (fun c => (fr.lookup c).isSome)) =
      (w'.data.dedup.all (fun c => (fr.lookup c).isSome)) := by
    rw [Bool.eq_iff_iff]
    simp only [List.all_eq_true]
    constructor <;> intro hx c hc
    · exact hx c (hd.mem_iff.mpr hc)
    · exact hx c (hd.mem_iff.mp hc)
  have hv : sws_val w fr = sws_val w' fr :=
    (hd.map (fun c => (fr.lookup c).getD 0)).sum_eq
  rw [hall, hv]

/-- C7 witness: a concrete permuted pair of words with equal scores. -/
theorem c7_witness :
    single_word_score (String.mk ['b', 'c', 'a', 'a', 'd'])
        [('a', mkRat 1 2), ('b', mkRat 1 3), ('c', mkRat 1 12), ('d', mkRat 1 12)] =
      single_word_score (String.mk ['a', 'a', 'b', 'c', 'd'])
        [('a', mkRat 1 2), ('b', mkRat 1 3), ('c', mkRat 1 12), ('d', mkRat 1 12)] :=
  c7_single_word_score_perm _ _ _ (by decide)

end WordleModel

namespace WordleModel

/-! ### The pair-score formula -/

theorem foldlM_penalty (w1 : String) (fr : FreqTable) :
    ∀ (l : List (Nat × Char)) (s : ℚ),
      (∀ ic ∈ l, ic.1 < w1.data.length) →
      (∀ ic ∈ l, (fr.lookup ic.2).isSome = true) →
      l.foldlM (pair_penalty_step w1 fr) s =
        some (s - (l.map (pen_term w1 fr)).sum)
  | [], s, _, _ => by simp
  | ic :: l, s, hb, hp => by
    obtain ⟨i, c⟩ := ic
    have hi : i < w1.data.length := hb (i, c) (List.mem_cons_self _ _)
    obtain ⟨c1, hc1⟩ : ∃ c1, w1.data.get? i = some c1 :=
      ⟨_, List.get?_eq_get hi⟩
    obtain ⟨q, hq⟩ : ∃ q, fr.lookup c = some q :=
      Option.isSome_iff_exists.mp (hp (i, c) (List.mem_cons_self _ _))
    have step_eq : pair_penalty_step w1 fr s (i, c) =
        some (s - pen_term w1 fr (i, c)) := by
      unfold pair_penalty_step pen_term
      simp only [hc1, hq]
      by_cases he : c1 = c
      · subst he
        simp [hc1, hq]
      · have hne : ¬ (w1.data.get? i = some c) := by
          rw [hc1]
          simp [he]
        simp only [he, if_false, hne]
        by_cases hm : c ∈ w1.data
        · simp [hm, List.elem_iff.mpr hm, hq, he]
        · have hcont : w1.data.contains c = false := by
            simp [List.elem_iff, hm]
          simp [hm, hcont, he]
    simp only [List.foldlM_cons, List.map_cons, List.sum_cons, step_eq,
      Option.bind_eq_bind, Option.some_bind]
    rw [foldlM_penalty w1 fr l (s - pen_term w1 fr (i, c))
      (fun x hx => hb x (List.mem_cons_of_mem _ hx))
      (fun x hx => hp x (List.mem_cons_of_mem _ hx))]
    congr 1
    ring

theorem pair_score_formula (w1 w2 : String) (fr : FreqTable)
    (h1 : w1.data.length = 5) (h2 : w2.data.length = 5)
    (hp1 : ∀ c ∈ w1.data, (fr.lookup c).isSome = true)
    (hp2 : ∀ c ∈ w2.data, (fr.lookup c).isSome = true) :
    pair_score w1 w2 fr =
      some (sws_val w1 fr + sws_val w2 fr -
        ((w2.data.enum).map (pen_term w1 fr)).sum) := by
  unfold pair_score
  rw [single_word_score_eq_of_mem w1 fr hp1, single_word_score_eq_of_mem w2 fr hp2]
  simp only [Option.bind_eq_bind, Option.some_bind]
  rw [foldlM_penalty w1 fr]
  · intro ic hic
    have := List.mem_enum_iff_getElem?.mp hic
    have hlt : ic.1 < w2.data.length := by
      rcases List.getElem?_eq_some.mp this with ⟨hh, _⟩
      exact hh
    omega
  · intro ic hic
    have := List.mem_enum_iff_getElem?.mp hic
    have : ic.2 ∈ w2.data := List.getElem?_mem this
    exact hp2 _ this

end WordleModel

namespace WordleModel

/-- C5: for 5-letter words whose letters are all in the table, the pair
score is the sum of the two single-word scores minus, over the
positions of `word2`, the full table entry on a same-position match,
half of it on a mere shared letter, and nothing otherwise. -/
theorem c5_pair_score_is_sum_minus_penalties (w1 w2 : String) (fr : FreqTable)
    (h1 : w1.data.length = 5) (h2 : w2.data.length = 5)
    (hp1 : ∀ c ∈ w1.data, (fr.lookup c).isSome = true)
    (hp2 : ∀ c ∈ w2.data, (fr.lookup c).isSome = true) :
    ∃ s1 s2, single_word_score w1 fr = some s1 ∧
      single_word_score w2 fr = some s2 ∧
      pair_score w1 w2 fr =
        some (s1 + s2 - ((w2.data.enum).map (pen_term w1 fr)).sum) :=
  ⟨sws_val w1 fr, sws_val w2 fr,
    single_word_score_eq_of_mem w1 fr hp1,
    single_word_score_eq_of_mem w2 fr hp2,
    pair_score_formula w1 w2 fr h1 h2 hp1 hp2⟩

/-- C5 witness: the formula at two concrete overlapping words. -/
theorem c5_witness :
    ∃ s1 s2,
      single_word_score (String.mk ['a', 'b', 'c', 'd', 'e']) frW = some s1 ∧
      single_word_score (String.mk ['a', 'c', 'f', 'g', 'h']) frW = some s2 ∧
      pair_score (String.mk ['a', 'b', 'c', 'd', 'e'])
          (String.mk ['a', 'c', 'f', 'g', 'h']) frW =
        some (s1 + s2 -
          (((String.mk ['a', 'c', 'f', 'g', 'h']).data.enum).map
            (pen_term (String.mk ['a', 'b', 'c', 'd', 'e']) frW)).sum) :=
  c5_pair_score_is_sum_minus_penalties _ _ frW (by decide) (by decide)
    (by decide) (by decide)

/-- C8: two 5-letter words sharing no letters (all letters in the
table) get exactly the sum of their single-word scores, no penalty. -/
theorem c8_disjoint_pair_score_is_sum (w1 w2 : String) (fr : FreqTable)
    (h1 : w1.data.length = 5) (h2 : w2.data.length = 5)
    (hdisj : ∀ c ∈ w2.data, c ∉ w1.data)
    (hp1 : ∀ c ∈ w1.data, (fr.lookup c).isSome = true)
    (hp2 : ∀ c ∈ w2.data, (fr.lookup c).isSome = true) :
    single_word_score w1 fr = some (sws_val w1 fr) ∧
      single_word_score w2 fr = some (sws_val w2 fr) ∧
      pair_score w1 w2 fr = some (sws_val w1 fr + sws_val w2 fr) := by
  refine ⟨single_word_score_eq_of_mem _ _ hp1,
    single_word_score_eq_of_mem _ _ hp2, ?_⟩
  rw [pair_score_formula w1 w2 fr h1 h2 hp1 hp2]
  have hz : ((w2.data.enum).map (pen_term w1 fr)).sum = 0 := by
    apply List.sum_eq_zero
    intro x hx
    obtain ⟨ic, hic, rfl⟩ := List.mem_map.mp hx
    have hmem : ic.2 ∈ w2.data :=
      List.getElem?_mem (List.mem_enum_iff_getElem?.mp hic)
    have hnm : ic.2 ∉ w1.data := hdisj _ hmem
    have hg : w1.data[ic.1]? ≠ some ic.2 := by
      intro hcon
      exact hnm (List.getElem?_mem hcon)
    unfold pen_term
    simp [hg, hnm]
  rw [hz, sub_zero]

/-- C8 witness: two concrete disjoint words. -/
theorem c8_witness :
    single_word_score (String.mk ['a', 'b', 'c', 'd', 'e']) frW =
        some (sws_val (String.mk ['a', 'b', 'c', 'd', 'e']) frW) ∧
      single_word_score (String.mk ['f', 'g', 'h', 'i', 'j']) frW =
        some (sws_val (String.mk ['f', 'g', 'h', 'i', 'j']) frW) ∧
      pair_score (String.mk ['a', 'b', 'c', 'd', 'e'])
          (String.mk ['f', 'g', 'h', 'i', 'j']) frW =
        some (sws_val (String.mk ['a', 'b', 'c', 'd', 'e']) frW +
          sws_val (String.mk ['f', 'g', 'h', 'i', 'j']) frW) :=
  c8_disjoint_pair_score_is_sum _ _ frW (by decide) (by decide) (by decide)
    (by decide) (by decide)

end WordleModel

namespace WordleModel

/-! ### The frequency table -/

theorem lookup_bump :
    ∀ (m : OccMap) (c d : Char),
      (bump m c).lookup d =
        if d = c then some ((m.lookup c).getD 0 + 1) else m.lookup d
  | [], c, d => by
    by_cases h : d = c
    · simp [bump, List.lookup_cons, h]
    · have hb : (d == c) = false := by simpa using h
      simp [bump, List.lookup_cons, hb, h]
  | (k, v) :: m, c, d => by
    simp only [bump]
    by_cases h1 : k = c
    · subst h1
      simp only [if_pos rfl]
      by_cases h : d = k
      · subst h
        simp [List.lookup_cons]
      · have hb : (d == k) = false := by simpa using h
        simp [List.lookup_cons, hb, h]
    · simp only [if_neg h1]
      by_cases h : d = k
      · subst h
        have hdc : ¬ d = c := fun hcon => h1 hcon
        simp [List.lookup_cons, hdc]
      · have hb : (d == k) = false := by simpa using h
        have hck : (c == k) = false := by
          simp only [beq_eq_false_iff_ne, ne_eq]
          exact fun hcon => h1 hcon.symm
        simp only [List.lookup_cons, hb, lookup_bump m c d]
        by_cases hdc : d = c <;> simp [hdc, List.lookup_cons, hck]

theorem lookup_map_div (q : ℚ) :
    ∀ (m : OccMap) (d : Char),
      ((m.map (fun p => (p.1, (p.2 : ℚ) / q))).lookup d) =
        (m.lookup d).map (fun v => (v : ℚ) / q)
  | [], _ => rfl
  | (k, v) :: m, d => by
    cases hdp : (d == k) with
    | true => simp [List.lookup_cons, hdp]
    | false => simp [List.lookup_cons, hdp, lookup_map_div q m d]

theorem fold_bump_total :
    ∀ (l : List Char) (a : OccMap × Nat),
      (l.foldl (fun a c => (bump a.1 c, a.2 + 1)) a).2 = a.2 + l.length
  | [], a => by simp
  | c :: l, a => by
    rw [List.foldl_cons]
    rw [fold_bump_total l (bump a.1 c, a.2 + 1)]
    simp only [List.length_cons]
    omega

theorem fold_bump_lookup :
    ∀ (l : List Char) (a : OccMap × Nat) (d : Char),
      ((l.foldl (fun a c => (bump a.1 c, a.2 + 1)) a).1).lookup d =
        if l.count d = 0 then a.1.lookup d
        else some ((a.1.lookup d).getD 0 + l.count d)
  | [], a, d => by simp
  | c :: l, a, d => by
    rw [List.foldl_cons]
    rw [fold_bump_lookup l (bump a.1 c, a.2 + 1) d]
    rw [lookup_bump a.1 c d]
    rw [List.count_cons]
    by_cases hdc : d = c
    · subst hdc
      simp only [if_pos rfl, beq_self_eq_true, if_true]
      by_cases hl : l.count d = 0
      · simp [hl]
      · simp only [hl, if_false, Option.getD_some]
        have : l.count d + 1 ≠ 0 := by omega
        simp only [this, if_false, Option.some.injEq]
        omega
    · have hb : (c == d) = false := by
        simp only [beq_eq_false_iff_ne, ne_eq]
        exact fun hcon => hdc hcon.symm
      simp only [hdc, if_false, hb, Bool.false_eq_true, add_zero]

end WordleModel

namespace WordleModel

theorem freq_step_eq (ws : List String) (a : OccMap × Nat) (w : String) :
    freq_step ws a w = if keep_word ws w then count_word a w else a := by
  by_cases h1 : apos ∈ w.data
  · simp [freq_step, keep_word, h1]
  · by_cases h2 : w.data.getLast? = some 's'
    · by_cases h3 : un_pluralize w ∈ ws
      · simp [freq_step, keep_word, h1, h2, h3]
      · simp [freq_step, keep_word, h1, h2, h3]
    · simp [freq_step, keep_word, h1, h2]

theorem fold_freq_total :
    ∀ (l : List String) (ws : List String) (a : OccMap × Nat),
      (l.foldl (freq_step ws) a).2 =
        a.2 + ((l.filter (keep_word ws)).flatMap
          (fun w => w.data.filter is_ascii_alnum)).length
  | [], ws, a => by simp
  | w :: l, ws, a => by
    rw [List.foldl_cons, freq_step_eq, List.filter_cons]
    by_cases hk : keep_word ws w
    · simp only [hk, if_true]
      rw [fold_freq_total l ws (count_word a w)]
      unfold count_word
      rw [fold_bump_total]
      simp only [List.flatMap_cons, List.length_append]
      omega
    · have hkf : keep_word ws w = false := by simpa using hk
      simp only [hkf, Bool.false_eq_true, if_false]
      exact fold_freq_total l ws a

theorem fold_freq_lookup :
    ∀ (l : List String) (ws : List String) (a : OccMap × Nat) (d : Char),
      ((l.foldl (freq_step ws) a).1).lookup d =
        if ((l.filter (keep_word ws)).flatMap
            (fun w => w.data.filter is_ascii_alnum)).count d = 0 then
          a.1.lookup d
        else
          some ((a.1.lookup d).getD 0 +
            ((l.filter (keep_word ws)).flatMap
              (fun w => w.data.filter is_ascii_alnum)).count d)
  | [], ws, a, d => by simp
  | w :: l, ws, a, d => by
    rw [List.foldl_cons, freq_step_eq, List.filter_cons]
    by_cases hk : keep_word ws w
    · simp only [hk, if_true]
      rw [fold_freq_lookup l ws (count_word a w) d]
      unfold count_word
      rw [fold_bump_lookup]
      simp only [List.flatMap_cons, List.count_append]
      split_ifs <;>
        first
          | rfl
          | omega
          | (simp_all only [Option.getD_some, Option.some.injEq]; omega)
    · have hkf : keep_word ws w = false := by simpa using hk
      simp only [hkf, Bool.false_eq_true, if_false]
      exact fold_freq_lookup l ws a d

/-- C6: full characterisation of `letter_frequencies`.  A character has
an entry exactly when it occurs (as an ASCII alphanumeric character) in
some word that is neither an apostrophe word nor a plural duplicate,
and the entry is its occurrence count (repeats counted) divided by the
total number of counted characters; unobserved characters are absent
rather than zero. -/
theorem c6_letter_frequencies_characterisation (ws : List String) (c : Char) :
    (letter_frequencies ws).lookup c =
      if (counted_chars ws).count c = 0 then none
      else some (((counted_chars ws).count c : ℚ) /
        ((counted_chars ws).length : ℚ)) := by
  simp only [letter_frequencies, counted_chars, kept_words]
  rw [lookup_map_div]
  rw [fold_freq_lookup ws ws (([] : OccMap), (0 : Nat)) c]
  rw [fold_freq_total ws ws (([] : OccMap), (0 : Nat))]
  by_cases h : ((ws.filter (keep_word ws)).flatMap
      (fun w => w.data.filter is_ascii_alnum)).count c = 0
  · simp [h]
  · simp [h]

end WordleModel

namespace WordleModel

/-! ### C10: the loader and empty lines -/

/-- C10: the loader demands a first character of every line, so any
empty line aborts the run; and on a dictionary whose lines are all
nonempty the loader succeeds. -/
theorem c10_load_words_empty_line (lines : List String) :
    ("" ∈ lines → load_words lines = none) ∧
      ((∀ l ∈ lines, l ≠ "") → (load_words lines).isSome = true) := by
  induction lines with
  | nil =>
    refine ⟨fun h => absurd h (List.not_mem_nil _), fun _ => rfl⟩
  | cons l ls ih =>
    constructor
    · intro hmem
      rcases List.mem_cons.mp hmem with h | h
      · subst h
        rfl
      · unfold load_words
        cases hh : l.data.head? with
        | none => rfl
        | some c => simp [ih.1 h]
    · intro hall
      have hl : l ≠ "" := hall l (List.mem_cons_self _ _)
      obtain ⟨ld⟩ := l
      cases hd : ld with
      | nil =>
        subst hd
        exact absurd rfl hl
      | cons c cs =>
        subst hd
        have h2 := ih.2 (fun x hx => hall x (List.mem_cons_of_mem _ hx))
        obtain ⟨rest, hrest⟩ := Option.isSome_iff_exists.mp h2
        unfold load_words
        simp [hrest]

/-- C10 witness: a dictionary with an empty second line aborts; the
same dictionary without it loads. -/
theorem c10_witness :
    load_words [String.mk ['a', 'b'], ""] = none ∧
      (load_words [String.mk ['a', 'b']]).isSome = true :=
  ⟨(c10_load_words_empty_line _).1 (by simp),
   (c10_load_words_empty_line _).2 (by decide)⟩

/-! ### C4: an empty filtered word set does not stop the run -/

/-- C4 counterexample: on an empty dictionary (word set empty after
filtering, zero letters counted) the run does not fail during frequency
computation or anywhere else; it completes, returning an empty
frequency table and empty rankings. -/
theorem c4_empty_input_run_completes :
    letter_frequencies [] = [] ∧ run_main [] = some ([], [], []) :=
  ⟨rfl, rfl⟩

/-- C4 as amended: when no letters are counted (the word set is empty
after filtering), the division loop of `letter_frequencies` runs over
an empty occurrence map, so no division happens and the result is the
empty table rather than an error or NaN entries. -/
theorem c4_zero_letters_empty_table (ws : List String)
    (h : counted_chars ws = []) :
    letter_frequencies ws = [] := by
  have hw : ∀ w ∈ ws, keep_word ws w = true →
      w.data.filter is_ascii_alnum = [] := by
    intro w hwmem hk
    unfold counted_chars at h
    exact List.flatMap_eq_nil_iff.mp h w
      (List.mem_filter.mpr ⟨hwmem, hk⟩)
  have hfold : ∀ (l : List String) (a : OccMap × Nat),
      (∀ w ∈ l, keep_word ws w = true → w.data.filter is_ascii_alnum = []) →
      l.foldl (freq_step ws) a = a := by
    intro l
    induction l with
    | nil => intro a _; rfl
    | cons w l ihl =>
      intro a hcond
      rw [List.foldl_cons, freq_step_eq]
      by_cases hk : keep_word ws w
      · rw [if_pos hk]
        have hzero : w.data.filter is_ascii_alnum = [] :=
          hcond w (List.mem_cons_self _ _) hk
        have : count_word a w = a := by
          unfold count_word
          rw [hzero]
          rfl
        rw [this]
        exact ihl a (fun x hx => hcond x (List.mem_cons_of_mem _ hx))
      · rw [if_neg hk]
        exact ihl a (fun x hx => hcond x (List.mem_cons_of_mem _ hx))
  simp only [letter_frequencies]
  rw [hfold ws (([] : OccMap), (0 : Nat)) hw]
  rfl

/-- C4 amended-claim witness: a set holding one possessive word counts
no letters and yields the empty table. -/
theorem c4_witness :
    letter_frequencies [String.mk ['a', apos]] = [] :=
  c4_zero_letters_empty_table _ (by decide)

end WordleModel

namespace WordleModel

/-! ### Pair-map machinery -/

theorem has_key_iff (m : PairMap) (k : String × String) :
    has_key m k = true ↔ ∃ p ∈ m, p.1 = k := by
  simp [has_key, List.any_eq_true, beq_iff_eq]

theorem has_key_im_insert_self (m : PairMap) (k : String × String) (v : ℚ) :
    has_key (im_insert m k v) k = true := by
  rw [has_key_iff]
  unfold im_insert
  by_cases hex : m.any (fun p => p.1 == k)
  · rw [if_pos hex]
    obtain ⟨p, hp, hpk⟩ := List.any_eq_true.mp hex
    exact ⟨(k, v), List.mem_map.mpr ⟨p, hp, by simp [hpk]⟩, rfl⟩
  · rw [if_neg hex]
    exact ⟨(k, v), List.mem_append_right _ (List.mem_singleton_self _), rfl⟩

theorem has_key_im_insert_mono (m : PairMap) (k k' : String × String) (v : ℚ)
    (h : has_key m k = true) :
    has_key (im_insert m k' v) k = true := by
  rw [has_key_iff] at h ⊢
  obtain ⟨p, hp, hpk⟩ := h
  unfold im_insert
  by_cases hex : m.any (fun p => p.1 == k')
  · rw [if_pos hex]
    by_cases hkk : p.1 == k'
    · refine ⟨(k', v), List.mem_map.mpr ⟨p, hp, by simp [hkk]⟩, ?_⟩
      have : p.1 = k' := by simpa using hkk
      simp [← this, hpk]
    · exact ⟨p, List.mem_map.mpr ⟨p, hp, by simp [hkk]⟩, hpk⟩
  · rw [if_neg hex]
    exact ⟨p, List.mem_append_left _ hp, hpk⟩

theorem has_key_im_insert_elim (m : PairMap) (k k' : String × String) (v : ℚ)
    (h : has_key (im_insert m k' v) k = true) :
    has_key m k = true ∨ k = k' := by
  rw [has_key_iff] at h
  obtain ⟨q, hq, hqk⟩ := h
  unfold im_insert at hq
  by_cases hex : m.any (fun p => p.1 == k')
  · rw [if_pos hex] at hq
    obtain ⟨p, hp, hpq⟩ := List.mem_map.mp hq
    by_cases hkk : p.1 == k'
    · right
      rw [if_pos hkk] at hpq
      rw [← hpq] at hqk
      exact hqk.symm
    · left
      rw [if_neg hkk] at hpq
      subst hpq
      exact (has_key_iff m k).mpr ⟨p, hp, hqk⟩
  · rw [if_neg hex] at hq
    rcases List.mem_append.mp hq with hq | hq
    · exact Or.inl ((has_key_iff m k).mpr ⟨q, hq, hqk⟩)
    · right
      rw [List.mem_singleton] at hq
      subst hq
      exact hqk.symm

theorem foldlM_opt_inv {α β : Type} (f : β → α → Option β) (P : β → Prop)
    (hf : ∀ b a b', P b → f b a = some b' → P b') :
    ∀ (l : List α) (b b' : β), P b → l.foldlM f b = some b' → P b'
  | [], b, b', hb, h => by
    simp only [List.foldlM_nil, Option.pure_def, Option.some.injEq] at h
    exact h ▸ hb
  | a :: l, b, b', hb, h => by
    rw [List.foldlM_cons] at h
    cases hfa : f b a with
    | none => rw [hfa] at h; simp at h
    | some b1 =>
      rw [hfa] at h
      simp only [Option.bind_eq_bind, Option.some_bind] at h
      exact foldlM_opt_inv f P hf l b1 b' (hf b a b1 hb hfa) h

theorem mem_insert_desc {K : Type} (x y : K × ℚ) :
    ∀ (l : List (K × ℚ)), x ∈ insert_desc y l ↔ x = y ∨ x ∈ l
  | [] => by simp [insert_desc]
  | z :: l => by
    unfold insert_desc
    by_cases hc : y.2 ≤ z.2
    · rw [if_pos hc]
      rw [List.mem_cons, mem_insert_desc x y l, List.mem_cons]
      tauto
    · rw [if_neg hc]
      rw [List.mem_cons, List.mem_cons]

theorem mem_sort_desc {K : Type} (x : K × ℚ) :
    ∀ (l : List (K × ℚ)), x ∈ sort_desc l ↔ x ∈ l
  | [] => Iff.rfl
  | y :: l => by
    unfold sort_desc
    rw [mem_insert_desc, mem_sort_desc x l, List.mem_cons]

theorem has_key_of_take_sort (m : PairMap) (n : Nat) (k : String × String)
    (h : has_key ((sort_desc m).take n) k = true) :
    has_key m k = true := by
  rw [has_key_iff] at h ⊢
  obtain ⟨p, hp, hpk⟩ := h
  exact ⟨p, (mem_sort_desc p m).mp (List.take_subset n _ hp), hpk⟩

end WordleModel

namespace WordleModel

/-- Within one `score_word_pair` accumulation step, the duplicate-pair
check keeps the map free of double orderings. -/
theorem step_no_dual (w1 w2 : String) (fr : FreqTable) (m m' : PairMap)
    (hP : ∀ A B : String, A ≠ B →
      ¬(has_key m (A, B) = true ∧ has_key m (B, A) = true))
    (h : (if has_key m (w1, w2) || has_key m (w2, w1) then some m
          else (pair_score w1 w2 fr).map (fun s => im_insert m (w1, w2) s)) =
        some m') :
    ∀ A B : String, A ≠ B →
      ¬(has_key m' (A, B) = true ∧ has_key m' (B, A) = true) := by
  by_cases hc : (has_key m (w1, w2) || has_key m (w2, w1)) = true
  · rw [if_pos hc, Option.some.injEq] at h
    exact h ▸ hP
  · rw [if_neg hc] at h
    have hc1 : has_key m (w1, w2) = false := by
      rcases Bool.or_eq_false_iff.mp (Bool.not_eq_true _ |>.mp hc) with ⟨h1, _⟩
      exact h1
    have hc2 : has_key m (w2, w1) = false := by
      rcases Bool.or_eq_false_iff.mp (Bool.not_eq_true _ |>.mp hc) with ⟨_, h2⟩
      exact h2
    cases hps : pair_score w1 w2 fr with
    | none => rw [hps] at h; simp at h
    | some s =>
      rw [hps] at h
      simp only [Option.map_some', Option.some.injEq] at h
      subst h
      rintro A B hne ⟨hA, hB⟩
      rcases has_key_im_insert_elim m (A, B) (w1, w2) s hA with hA2 | hA2
      · rcases has_key_im_insert_elim m (B, A) (w1, w2) s hB with hB2 | hB2
        · exact hP A B hne ⟨hA2, hB2⟩
        · obtain ⟨hB1, hB2'⟩ := Prod.mk.injEq _ _ _ _ ▸ hB2
          subst hB1
          subst hB2'
          rw [hA2] at hc2
          cases hc2
      · rcases has_key_im_insert_elim m (B, A) (w1, w2) s hB with hB2 | hB2
        · obtain ⟨hA1, hA2'⟩ := Prod.mk.injEq _ _ _ _ ▸ hA2
          subst hA1
          subst hA2'
          rw [hB2] at hc2
          cases hc2
        · obtain ⟨hA1, hA2'⟩ := Prod.mk.injEq _ _ _ _ ▸ hA2
          obtain ⟨hB1, hB2'⟩ := Prod.mk.injEq _ _ _ _ ▸ hB2
          subst hA1
          subst hB1
          exact hne (hA2'.trans hB2'.symm)

theorem score_word_pair_no_dual (w1 : String) (fr : FreqTable)
    (aw : List String) (m m' : PairMap)
    (hP : ∀ A B : String, A ≠ B →
      ¬(has_key m (A, B) = true ∧ has_key m (B, A) = true))
    (h : score_word_pair w1 fr aw m = some m') :
    ∀ A B : String, A ≠ B →
      ¬(has_key m' (A, B) = true ∧ has_key m' (B, A) = true) := by
  unfold score_word_pair at h
  exact foldlM_opt_inv _
    (fun m => ∀ A B : String, A ≠ B →
      ¬(has_key m (A, B) = true ∧ has_key m (B, A) = true))
    (fun b a b' hb hba => step_no_dual w1 a fr b b' hb hba)
    aw m m' hP h

/-- C2 as amended: in the map produced by a single shard, at most one
ordering of every unordered pair of distinct words is stored; the
deduplication, however, is local to the shard, and the cross-shard
merge of `score_word_pairs` can hold both orderings (see the
counterexample). -/
theorem c2_shard_stores_one_ordering (words_to_score all_words : List String)
    (fr : FreqTable) (m : PairMap)
    (h : score_word_pairs_shard words_to_score all_words fr = some m)
    (A B : String) (hne : A ≠ B) :
    ¬(has_key m (A, B) = true ∧ has_key m (B, A) = true) := by
  unfold score_word_pairs_shard at h
  cases hf : words_to_score.foldlM
      (fun m w1 => score_word_pair w1 fr all_words m) ([] : PairMap) with
  | none => rw [hf] at h; simp at h
  | some m0 =>
    rw [hf] at h
    simp only [Option.bind_eq_bind, Option.some_bind, Option.pure_def,
      Option.some.injEq] at h
    have h0 : ∀ A B : String, A ≠ B →
        ¬(has_key m0 (A, B) = true ∧ has_key m0 (B, A) = true) := by
      refine foldlM_opt_inv _
        (fun m => ∀ A B : String, A ≠ B →
          ¬(has_key m (A, B) = true ∧ has_key m (B, A) = true))
        (fun b a b' hb hba => score_word_pair_no_dual a fr all_words b b' hb hba)
        words_to_score ([] : PairMap) m0 ?_ hf
      intro A B _ hcon
      simp [has_key] at hcon
    rintro ⟨hA, hB⟩
    subst h
    exact h0 A B hne
      ⟨has_key_of_take_sort m0 100 (A, B) hA,
       has_key_of_take_sort m0 100 (B, A) hB⟩

end WordleModel

namespace WordleModel

theorem step_has_key_mono (w1 w2 : String) (fr : FreqTable) (m m' : PairMap)
    (k : String × String) (hk : has_key m k = true)
    (h : (if has_key m (w1, w2) || has_key m (w2, w1) then some m
          else (pair_score w1 w2 fr).map (fun s => im_insert m (w1, w2) s)) =
        some m') :
    has_key m' k = true := by
  by_cases hc : (has_key m (w1, w2) || has_key m (w2, w1)) = true
  · rw [if_pos hc, Option.some.injEq] at h
    exact h ▸ hk
  · rw [if_neg hc] at h
    cases hps : pair_score w1 w2 fr with
    | none => rw [hps] at h; simp at h
    | some s =>
      rw [hps] at h
      simp only [Option.map_some', Option.some.injEq] at h
      exact h ▸ has_key_im_insert_mono m k (w1, w2) s hk

/-- C3 as amended: `score_word_pair` does not exclude self-pairs; when
its `word1` occurs in the candidate list it is scored against, the
resulting map always holds the key `(word1, word1)`. -/
theorem c3_self_pair_inserted (w : String) (fr : FreqTable) :
    ∀ (all_words : List String) (m m' : PairMap), w ∈ all_words →
      score_word_pair w fr all_words m = some m' →
      has_key m' (w, w) = true
  | [], m, m', hw, _ => absurd hw (List.not_mem_nil _)
  | a :: l, m, m', hw, h => by
    unfold score_word_pair at h
    simp only [List.foldlM_cons] at h
    cases hs : (if has_key m (w, a) || has_key m (a, w) then some m
        else (pair_score w a fr).map (fun s => im_insert m (w, a) s)) with
    | none => rw [hs] at h; simp at h
    | some m1 =>
      rw [hs] at h
      simp only [Option.bind_eq_bind, Option.some_bind] at h
      rcases List.mem_cons.mp hw with rfl | hw2
      · have h1 : has_key m1 (w, w) = true := by
          by_cases hc : (has_key m (w, w) || has_key m (w, w)) = true
          · rw [if_pos hc, Option.some.injEq] at hs
            rw [← hs]
            simpa using hc
          · rw [if_neg hc] at hs
            cases hps : pair_score w w fr with
            | none => rw [hps] at hs; simp at hs
            | some s =>
              rw [hps] at hs
              simp only [Option.map_some', Option.some.injEq] at hs
              exact hs ▸ has_key_im_insert_self m (w, w) s
        exact foldlM_opt_inv _ (fun m => has_key m (w, w) = true)
          (fun b a' b' hb hba => step_has_key_mono w a' fr b b' (w, w) hb hba)
          l m1 m' h1 h
      · exact c3_self_pair_inserted w fr l m1 m' hw2 h

end WordleModel

namespace WordleModel

theorem shard_has_key_iff (s aw : List String) (fr : FreqTable)
    (k : String × String) :
    shard_has_key s aw fr k = true ↔
      ∃ r, score_word_pairs_shard s aw fr = some r ∧ has_key r k = true := by
  unfold shard_has_key
  cases h : score_word_pairs_shard s aw fr with
  | none => simp
  | some r => simp

theorem mapM_isSome {α β : Type} (f : α → Option β) :
    ∀ (l : List α), (∀ x ∈ l, (f x).isSome = true) → (l.mapM f).isSome = true
  | [], _ => rfl
  | x :: l, h => by
    rw [List.mapM_cons]
    obtain ⟨y, hy⟩ := Option.isSome_iff_exists.mp (h x (List.mem_cons_self _ _))
    obtain ⟨res, hres⟩ := Option.isSome_iff_exists.mp
      (mapM_isSome f l (fun z hz => h z (List.mem_cons_of_mem _ hz)))
    rw [hy, hres]
    rfl

theorem mapM_mem {α β : Type} (f : α → Option β) :
    ∀ (l : List α) (res : List β), l.mapM f = some res →
      ∀ (x : α) (y : β), x ∈ l → f x = some y → y ∈ res
  | [], res, h => by
    intro x y hx
    exact absurd hx (List.not_mem_nil _)
  | a :: l, res, h => by
    rw [List.mapM_cons] at h
    cases hfa : f a with
    | none => rw [hfa] at h; simp at h
    | some b =>
      rw [hfa] at h
      cases hml : l.mapM f with
      | none => rw [hml] at h; simp at h
      | some bs =>
        rw [hml] at h
        simp only [Option.bind_eq_bind, Option.some_bind, Option.pure_def,
          Option.some.injEq] at h
        intro x y hx hfx
        rcases List.mem_cons.mp hx with rfl | hx2
        · rw [hfa] at hfx
          injection hfx with hyb
          rw [← h, ← hyb]
          exact List.mem_cons_self _ _
        · rw [← h]
          exact List.mem_cons_of_mem _ (mapM_mem f l bs hml x y hx2 hfx)

theorem has_key_merge_acc (k : String × String) :
    ∀ (m acc : PairMap), has_key acc k = true →
      has_key (merge_shard acc m) k = true
  | [], acc, h => h
  | p :: m, acc, h => by
    unfold merge_shard
    rw [List.foldl_cons]
    exact has_key_merge_acc k m (im_insert acc p.1 p.2)
      (has_key_im_insert_mono acc k p.1 p.2 h)

theorem has_key_merge_mem (k : String × String) :
    ∀ (m acc : PairMap), has_key m k = true →
      has_key (merge_shard acc m) k = true
  | [], acc, h => by simp [has_key] at h
  | p :: m, acc, h => by
    unfold merge_shard
    rw [List.foldl_cons]
    rcases (has_key_iff (p :: m) k).mp h with ⟨q, hq, hqk⟩
    rcases List.mem_cons.mp hq with rfl | hq2
    · exact has_key_merge_acc k m _
        (hqk ▸ has_key_im_insert_self acc q.1 q.2)
    · exact has_key_merge_mem k m (im_insert acc p.1 p.2)
        ((has_key_iff m k).mpr ⟨q, hq2, hqk⟩)

theorem has_key_foldl_merge (k : String × String) :
    ∀ (results : List PairMap) (acc : PairMap),
      ((∃ r ∈ results, has_key r k = true) ∨ has_key acc k = true) →
      has_key (results.foldl merge_shard acc) k = true
  | [], acc, h => by
    rcases h with ⟨r, hr, _⟩ | h
    · exact absurd hr (List.not_mem_nil _)
    · exact h
  | r :: results, acc, h => by
    rw [List.foldl_cons]
    rcases h with ⟨r', hr', hk'⟩ | h
    · rcases List.mem_cons.mp hr' with rfl | hr2
      · exact has_key_foldl_merge k results (merge_shard acc r')
          (Or.inr (has_key_merge_mem k r' acc hk'))
      · exact has_key_foldl_merge k results (merge_shard acc r)
          (Or.inl ⟨r', hr2, hk'⟩)
    · exact has_key_foldl_merge k results (merge_shard acc r)
        (Or.inr (has_key_merge_acc k r acc h))

/-- Any key present in a successful shard's result is present in the
merged result of `score_word_pairs`. -/
theorem score_word_pairs_key (aw : List String) (fr : FreqTable) (M : PairMap)
    (h : score_word_pairs aw fr = some M) (s : List String) (r : PairMap)
    (hs : s ∈ shards aw) (hr : score_word_pairs_shard s aw fr = some r)
    (k : String × String) (hk : has_key r k = true) :
    has_key M k = true := by
  unfold score_word_pairs at h
  cases hm : (shards aw).mapM (fun s => score_word_pairs_shard s aw fr) with
  | none => rw [hm] at h; simp at h
  | some res =>
    rw [hm] at h
    simp only [Option.bind_eq_bind, Option.some_bind, Option.pure_def,
      Option.some.injEq] at h
    have hrmem : r ∈ res := mapM_mem _ (shards aw) res hm s r hs hr
    exact h ▸ has_key_foldl_merge k res [] (Or.inl ⟨r, hrmem, hk⟩)

end WordleModel

namespace WordleModel

attribute [local semireducible] Rat.add Rat.sub Rat.mul Rat.inv

set_option maxRecDepth 100000

/-- Every one of the 24 shards of `words24` scores without aborting. -/
theorem all_shards24_some :
    ∀ s ∈ shards words24,
      (score_word_pairs_shard s words24 fr24).isSome = true := by decide

/-- C2 counterexample: on the 24-word candidate list `words24` the
merged result of `score_word_pairs` holds both orderings of the
distinct pair of words `mkW x` and `mkW w`, because the two words land
in different shards and each shard deduplicates only locally. -/
theorem c2_counterexample :
    ∃ M, score_word_pairs words24 fr24 = some M ∧
      mkW 'x' ∈ words24 ∧ mkW 'w' ∈ words24 ∧ mkW 'x' ≠ mkW 'w' ∧
      has_key M (mkW 'x', mkW 'w') = true ∧
      has_key M (mkW 'w', mkW 'x') = true := by
  obtain ⟨res, hres⟩ := Option.isSome_iff_exists.mp
    (mapM_isSome _ (shards words24) all_shards24_some)
  have hM : score_word_pairs words24 fr24 = some (res.foldl merge_shard []) := by
    unfold score_word_pairs
    rw [hres]
    rfl
  have h1 : shard_has_key [mkW 'x'] words24 fr24 (mkW 'x', mkW 'w') = true := by
    decide
  have h2 : shard_has_key [mkW 'w'] words24 fr24 (mkW 'w', mkW 'x') = true := by
    decide
  obtain ⟨r1, hr1, hk1⟩ := (shard_has_key_iff _ _ _ _).mp h1
  obtain ⟨r2, hr2, hk2⟩ := (shard_has_key_iff _ _ _ _).mp h2
  refine ⟨res.foldl merge_shard [], hM, by decide, by decide, by decide, ?_, ?_⟩
  · exact score_word_pairs_key words24 fr24 _ hM [mkW 'x'] r1 (by decide) hr1
      _ hk1
  · exact score_word_pairs_key words24 fr24 _ hM [mkW 'w'] r2 (by decide) hr2
      _ hk2

/-- C2 amended-claim witness: a concrete one-word shard stores only one
ordering of a concrete pair. -/
theorem c2_witness :
    ¬(has_key mW2 (mkW 'b', mkW 'c') = true ∧
      has_key mW2 (mkW 'c', mkW 'b') = true) :=
  c2_shard_stores_one_ordering [mkW 'b'] [mkW 'b', mkW 'c'] frW mW2 (by rfl)
    _ _ (by decide)

/-- C3 counterexample: the merged result of `score_word_pairs` on
`words24` holds the self-pair key of the word `mkW v`. -/
theorem c3_counterexample :
    ∃ M, score_word_pairs words24 fr24 = some M ∧
      mkW 'v' ∈ words24 ∧ has_key M (mkW 'v', mkW 'v') = true := by
  obtain ⟨res, hres⟩ := Option.isSome_iff_exists.mp
    (mapM_isSome _ (shards words24) all_shards24_some)
  have hM : score_word_pairs words24 fr24 = some (res.foldl merge_shard []) := by
    unfold score_word_pairs
    rw [hres]
    rfl
  have h1 : shard_has_key [mkW 'v'] words24 fr24 (mkW 'v', mkW 'v') = true := by
    decide
  obtain ⟨r1, hr1, hk1⟩ := (shard_has_key_iff _ _ _ _).mp h1
  exact ⟨res.foldl merge_shard [], hM, by decide,
    score_word_pairs_key words24 fr24 _ hM [mkW 'v'] r1 (by decide) hr1 _ hk1⟩

/-- C3 amended-claim witness: scoring `mkW b` against a list containing
it stores the self-pair. -/
theorem c3_witness : has_key mW3 (mkW 'b', mkW 'b') = true :=
  c3_self_pair_inserted (mkW 'b') frW [mkW 'b', mkW 'c'] [] mW3
    (by decide) (by rfl)

end WordleModel
